import Mathlib

/-!
Verification of the Monte Carlo simulation utilities (`src/lib/monte-carlo.ts`).

The numeric code is shallowly embedded over an ordered field: the functions
that stay inside field arithmetic (histogram, VaR, Expected Shortfall,
percentiles, max drawdown) are stated generically over a
`LinearOrderedField` with a `FloorRing` structure and instantiated at `ℚ`
for concrete evaluation, while the samplers and the GBM path simulator,
which use `Math.sqrt`, `Math.log`, `Math.cos` and `Math.exp`, are embedded
over `ℝ`.  A JavaScript `NaN` arising from `0/0` is modelled explicitly as
`Option.none` where a claim depends on it.  The stateful `rng` closure is
modelled as a stream `ℕ → ℝ` of successive draws together with explicit
draw indices, which reproduces the strictly ordered sequence of calls the
source performs.
-/

namespace MonteCarlo

/-- `Math.min(...values)` over a non-empty argument list: fold of `min`
starting from the first element (`0` is returned for the empty list, which
the source never produces at the call sites we verify). -/
def listMin {α : Type*} [LinearOrder α] [Zero α] : List α → α
  | [] => 0
  | x :: xs => xs.foldl min x

/-- `Math.max(...values)` over a non-empty argument list, analogous to
`listMin`. -/
def listMax {α : Type*} [LinearOrder α] [Zero α] : List α → α
  | [] => 0
  | x :: xs => xs.foldl max x

theorem foldl_min_le_init {α : Type*} [LinearOrder α] :
    ∀ (l : List α) (a : α), l.foldl min a ≤ a
  | [], _ => le_refl _
  | x :: xs, a => le_trans (foldl_min_le_init xs (min a x)) (min_le_left a x)

theorem foldl_min_le_mem {α : Type*} [LinearOrder α] :
    ∀ (l : List α) (a : α) (v : α), v ∈ l → l.foldl min a ≤ v
  | x :: xs, a, v, hv => by
    rcases List.mem_cons.mp hv with h | h
    · subst h
      exact le_trans (foldl_min_le_init xs (min a v)) (min_le_right a v)
    · exact foldl_min_le_mem xs (min a x) v h

theorem init_le_foldl_max {α : Type*} [LinearOrder α] :
    ∀ (l : List α) (a : α), a ≤ l.foldl max a
  | [], _ => le_refl _
  | x :: xs, a => le_trans (le_max_left a x) (init_le_foldl_max xs (max a x))

theorem mem_le_foldl_max {α : Type*} [LinearOrder α] :
    ∀ (l : List α) (a : α) (v : α), v ∈ l → v ≤ l.foldl max a
  | x :: xs, a, v, hv => by
    rcases List.mem_cons.mp hv with h | h
    · subst h
      exact le_trans (le_max_right a v) (init_le_foldl_max xs (max a v))
    · exact mem_le_foldl_max xs (max a x) v h

theorem listMin_le {α : Type*} [LinearOrder α] [Zero α] {l : List α} {v : α}
    (hv : v ∈ l) : listMin l ≤ v := by
  cases l with
  | nil => cases hv
  | cons x xs =>
    rcases List.mem_cons.mp hv with h | h
    · subst h; exact foldl_min_le_init xs v
    · exact foldl_min_le_mem xs x v h

theorem le_listMax {α : Type*} [LinearOrder α] [Zero α] {l : List α} {v : α}
    (hv : v ∈ l) : v ≤ listMax l := by
  cases l with
  | nil => cases hv
  | cons x xs =>
    rcases List.mem_cons.mp hv with h | h
    · subst h; exact init_le_foldl_max xs v
    · exact mem_le_foldl_max xs x v h

theorem foldl_min_mem {α : Type*} [LinearOrder α] :
    ∀ (l : List α) (a : α), l.foldl min a = a ∨ l.foldl min a ∈ l
  | [], _ => Or.inl rfl
  | x :: xs, a => by
    rcases foldl_min_mem xs (min a x) with h | h
    · rcases min_choice a x with hm | hm
      · exact Or.inl (h.trans hm)
      · exact Or.inr (by
          show List.foldl min (min a x) xs ∈ x :: xs
          rw [h, hm]; exact List.mem_cons_self x xs)
    · exact Or.inr (List.mem_cons_of_mem x h)

theorem listMin_mem {α : Type*} [LinearOrder α] [Zero α] {l : List α}
    (hl : l ≠ []) : listMin l ∈ l := by
  cases l with
  | nil => exact absurd rfl hl
  | cons x xs =>
    rcases foldl_min_mem xs x with h | h
    · rw [listMin, h]; exact List.mem_cons_self x xs
    · exact List.mem_cons_of_mem x h

/-- One `frequencies[i]++` on a frequency array, at a valid index; an index
beyond the end leaves the list unchanged (the source never produces one, as
proved below). -/
def incr : List ℕ → ℕ → List ℕ
  | [], _ => []
  | x :: xs, 0 => (x + 1) :: xs
  | x :: xs, n + 1 => x :: incr xs n

/-- `frequencies[i]++` at a JavaScript (possibly negative) index: a negative
index targets a non-element property and leaves the array contents
unchanged. -/
def jsIncr (l : List ℕ) (i : ℤ) : List ℕ :=
  if i < 0 then l else incr l i.toNat

@[simp] theorem incr_length : ∀ (l : List ℕ) (n : ℕ), (incr l n).length = l.length
  | [], _ => rfl
  | _ :: _, 0 => rfl
  | _ :: xs, n + 1 => congrArg Nat.succ (incr_length xs n)

theorem incr_sum {l : List ℕ} {n : ℕ} (h : n < l.length) :
    (incr l n).sum = l.sum + 1 := by
  induction l generalizing n with
  | nil => simp at h
  | cons x xs ih =>
    cases n with
    | zero => simp [incr, Nat.add_right_comm]
    | succ n =>
      have := ih (Nat.lt_of_succ_lt_succ h)
      simp [incr, this, Nat.add_assoc]

@[simp] theorem jsIncr_length (l : List ℕ) (i : ℤ) :
    (jsIncr l i).length = l.length := by
  unfold jsIncr; split <;> simp

theorem jsIncr_sum {l : List ℕ} {i : ℤ} (h0 : 0 ≤ i) (h1 : i < l.length) :
    (jsIncr l i).sum = l.sum + 1 := by
  unfold jsIncr
  rw [if_neg (not_lt.mpr h0)]
  exact incr_sum (by omega)

section Statistics

variable {α : Type*} [LinearOrderedField α] [FloorRing α]

/-- One iteration of the frequency-counting loop of `calculateHistogram`: a
value equal to the population maximum is placed in the last bin, every other
value in bin `min(floor((value-min)/binWidth), binCount-1)`. -/
def histStep (mn mx binWidth : α) (binCount : ℕ) (freqs : List ℕ) (v : α) :
    List ℕ :=
  if v = mx then jsIncr freqs ((binCount : ℤ) - 1)
  else jsIncr freqs (min (Int.floor ((v - mn) / binWidth)) ((binCount : ℤ) - 1))

/-- `calculateHistogram(values, binCount)`: bin edges are `binCount+1` evenly
spaced points from the population minimum; when `max == min` the range is
substituted by `1`. -/
def calculateHistogram (values : List α) (binCount : ℕ) : List α × List ℕ :=
  let mn := listMin values
  let mx := listMax values
  let range := if mn < mx then mx - mn else 1
  let binWidth := range / (binCount : α)
  let bins := (List.range (binCount + 1)).map (fun i : ℕ => mn + (i : α) * binWidth)
  let frequencies :=
    values.foldl (histStep mn mx binWidth binCount) (List.replicate binCount 0)
  (bins, frequencies)

/-- `calculateVaR(values, confidenceLevel)`: negated order statistic at index
`floor(len·(1-confidenceLevel))` of the ascending sort.  (For the confidence
levels in scope the index is non-negative and in range, so `Int.toNat` and
the `getD` default are never load-bearing.) -/
def calculateVaR (values : List α) (confidenceLevel : α) : α :=
  let sortedValues := values.insertionSort (· ≤ ·)
  let index := (Int.floor ((sortedValues.length : α) * (1 - confidenceLevel))).toNat;
  -(sortedValues.getD index 0)

/-- `calculateExpectedShortfall(values, confidenceLevel)`: the source always
computes `-sum/varIndex` over the first `varIndex` sorted values; when
`varIndex == 0` that is JavaScript `-0/0 = NaN`, modelled here as `none`. -/
def calculateExpectedShortfall (values : List α) (confidenceLevel : α) :
    Option α :=
  let sortedValues := values.insertionSort (· ≤ ·)
  let varIndex := (Int.floor ((sortedValues.length : α) * (1 - confidenceLevel))).toNat
  let sum := (sortedValues.take varIndex).sum
  if varIndex = 0 then none else some (-sum / (varIndex : α))

/-- The per-percentile computation of `calculatePercentiles`: the
ascending-sorted element at index `floor(p·(len-1))`.  (The source hoists the
sort out of its loop; inlining it per percentile is the same computation.) -/
def percentileValue (values : List α) (p : α) : α :=
  let sortedValues := values.insertionSort (· ≤ ·)
  sortedValues.getD (Int.floor (p * ((sortedValues.length : α) - 1))).toNat 0

/-- `calculatePercentiles(values, percentiles)`: association list from each
requested percentile `p` (standing for the source's label `"p" + 100·p`) to
the ascending-sorted element at index `floor(p·(len-1))`. -/
def calculatePercentiles (values : List α) (percentiles : List α) :
    List (α × α) :=
  percentiles.map fun p => (p, percentileValue values p)

/-- `Math.max` on two values either of which may be non-finite (`none`):
JavaScript `Math.max` is absorbing in `NaN`, and a `+Infinity` argument also
yields a non-finite result, so `none` is absorbing. -/
def jsMax : Option α → Option α → Option α
  | some a, some b => some (max a b)
  | _, _ => none

/-- One iteration of the `calculateMaxDrawdown` scan: raise the running peak,
then fold `(peak-value)/peak` into the running maximum; a zero peak makes the
division non-finite (`0/0 = NaN` or `positive/0 = +Infinity`), modelled as
`none`. -/
def drawdownStep (st : α × Option α) (value : α) : α × Option α :=
  let peak := if st.1 < value then value else st.1
  let dd : Option α := if peak = 0 then none else some ((peak - value) / peak)
  (peak, jsMax st.2 dd)

/-- `calculateMaxDrawdown(values)`: left-to-right scan from
`(peak = values[0], maxDrawdown = 0)`. -/
def calculateMaxDrawdown (values : List α) : Option α :=
  (values.foldl drawdownStep (values.headD 0, some 0)).2

end Statistics

section HistogramLemmas

variable {α : Type*} [LinearOrderedField α] [FloorRing α]

theorem histStep_length (mn mx binWidth : α) (binCount : ℕ) (freqs : List ℕ)
    (v : α) : (histStep mn mx binWidth binCount freqs v).length = freqs.length := by
  unfold histStep; split <;> simp

theorem foldl_histStep_length (mn mx binWidth : α) (binCount : ℕ) :
    ∀ (vs : List α) (freqs : List ℕ),
      (vs.foldl (histStep mn mx binWidth binCount) freqs).length = freqs.length
  | [], _ => rfl
  | v :: vs, freqs => by
    rw [List.foldl_cons, foldl_histStep_length mn mx binWidth binCount vs,
      histStep_length]

theorem histStep_sum {mn mx binWidth : α} {binCount : ℕ} {freqs : List ℕ} {v : α}
    (hlen : freqs.length = binCount) (hbc : 1 ≤ binCount) (hmn : mn ≤ v)
    (hbw : 0 < binWidth) :
    (histStep mn mx binWidth binCount freqs v).sum = freqs.sum + 1 := by
  unfold histStep
  split
  · exact jsIncr_sum (by omega) (by rw [hlen]; omega)
  · refine jsIncr_sum (le_min ?_ (by omega)) ?_
    · exact Int.floor_nonneg.mpr (div_nonneg (sub_nonneg.mpr hmn) hbw.le)
    · calc min (Int.floor ((v - mn) / binWidth)) ((binCount : ℤ) - 1)
          ≤ (binCount : ℤ) - 1 := min_le_right _ _
        _ < (freqs.length : ℤ) := by rw [hlen]; omega

theorem foldl_histStep_sum {mn : α} (mx binWidth : α) {binCount : ℕ}
    (hbw : 0 < binWidth) (hbc : 1 ≤ binCount) :
    ∀ (vs : List α) (freqs : List ℕ), freqs.length = binCount →
      (∀ v ∈ vs, mn ≤ v) →
      (vs.foldl (histStep mn mx binWidth binCount) freqs).sum =
        freqs.sum + vs.length
  | [], _, _, _ => by simp
  | v :: vs, freqs, hlen, hmem => by
    rw [List.foldl_cons,
      foldl_histStep_sum mx binWidth hbw hbc vs _
        (by rw [histStep_length, hlen])
        (fun w hw => hmem w (List.mem_cons_of_mem v hw)),
      histStep_sum hlen hbc (hmem v (List.mem_cons_self v vs)) hbw]
    simp [List.length_cons]
    omega

omit [FloorRing α] in
theorem histogram_binWidth_pos (values : List α) {binCount : ℕ}
    (hbc : 1 ≤ binCount) :
    0 < (if listMin values < listMax values
          then listMax values - listMin values else 1) / (binCount : α) := by
  apply div_pos
  · split
    · next h => exact sub_pos.mpr h
    · exact one_pos
  · exact_mod_cast Nat.lt_of_lt_of_le Nat.zero_lt_one hbc

theorem calculateHistogram_bins_length (values : List α) (binCount : ℕ) :
    (calculateHistogram values binCount).1.length = binCount + 1 := by
  simp [calculateHistogram]

theorem calculateHistogram_frequencies_length (values : List α) (binCount : ℕ) :
    (calculateHistogram values binCount).2.length = binCount := by
  simp [calculateHistogram, foldl_histStep_length]

theorem calculateHistogram_sum (values : List α) {binCount : ℕ}
    (hbc : 1 ≤ binCount) :
    (calculateHistogram values binCount).2.sum = values.length := by
  show (values.foldl (histStep _ _ _ binCount) (List.replicate binCount 0)).sum = _
  rw [foldl_histStep_sum _ _ (histogram_binWidth_pos values hbc) hbc values
    (List.replicate binCount 0) (List.length_replicate _ _)
    (fun v hv => listMin_le hv)]
  simp

theorem calculateHistogram_bins_sorted (values : List α) {binCount : ℕ}
    (hbc : 1 ≤ binCount) :
    (calculateHistogram values binCount).1.Pairwise (· < ·) := by
  show (((List.range (binCount + 1)).map _).Pairwise (· < ·))
  refine (List.pairwise_lt_range _).map _ (fun a b hab => ?_)
  exact add_lt_add_left
    (mul_lt_mul_of_pos_right (by exact_mod_cast hab)
      (histogram_binWidth_pos values hbc)) _

end HistogramLemmas

/-- C1: for a non-empty population and `binCount ≥ 1`, `calculateHistogram`
returns `binCount+1` bin edges, `binCount` frequencies, frequencies summing to
the population size, strictly increasing bin edges; and the degenerate
population `[1,1,1,1]` with 4 bins yields frequencies `[0,0,0,4]` (range
substituted by 1, every value equal to the maximum placed in the last bin). -/
theorem C1_calculateHistogram_invariants (values : List ℚ) (binCount : ℕ)
    (_hne : values ≠ []) (hbc : 1 ≤ binCount) :
    ((calculateHistogram values binCount).1.length = binCount + 1 ∧
      (calculateHistogram values binCount).2.length = binCount ∧
      (calculateHistogram values binCount).2.sum = values.length ∧
      (calculateHistogram values binCount).1.Pairwise (· < ·)) ∧
    (calculateHistogram ([1, 1, 1, 1] : List ℚ) 4).2 = [0, 0, 0, 4] :=
  ⟨⟨calculateHistogram_bins_length values binCount,
    calculateHistogram_frequencies_length values binCount,
    calculateHistogram_sum values hbc,
    calculateHistogram_bins_sorted values hbc⟩,
   by decide⟩

/-- C1 witness: the invariants evaluated on the degenerate population
`[1,1,1,1]` with 4 bins. -/
theorem C1_calculateHistogram_invariants_witness :
    (calculateHistogram ([1, 1, 1, 1] : List ℚ) 4).2.sum =
      ([1, 1, 1, 1] : List ℚ).length :=
  (C1_calculateHistogram_invariants [1, 1, 1, 1] 4 (by decide) (by decide)).1.2.2.1

section SortedLemmas

variable {α : Type*} [LinearOrder α] [Zero α]

theorem sorted_getD_mono {l : List α} (hs : l.Sorted (· ≤ ·)) {i j : ℕ}
    (hij : i ≤ j) (hj : j < l.length) : l.getD i 0 ≤ l.getD j 0 := by
  have hi : i < l.length := lt_of_le_of_lt hij hj
  rw [List.getD_eq_get l 0 hi, List.getD_eq_get l 0 hj]
  exact hs.rel_get_of_le (Fin.mk_le_mk.mpr hij)

theorem sorted_getD_zero_le_mem {l : List α} (hs : l.Sorted (· ≤ ·)) {v : α}
    (hv : v ∈ l) : l.getD 0 0 ≤ v := by
  obtain ⟨k, hk⟩ := List.mem_iff_get.mp hv
  have h0 : 0 < l.length := Nat.lt_of_le_of_lt (Nat.zero_le _) k.isLt
  rw [List.getD_eq_get l 0 h0, ← hk]
  exact hs.rel_get_of_le (Fin.mk_le_mk.mpr (Nat.zero_le _))

theorem insertionSort_getD_zero {l : List α} (hl : l ≠ []) :
    (l.insertionSort (· ≤ ·)).getD 0 0 = listMin l := by
  have hsorted := List.sorted_insertionSort (α := α) (· ≤ ·) l
  have hmem : listMin l ∈ l.insertionSort (· ≤ ·) :=
    (List.mem_insertionSort _).mpr (listMin_mem hl)
  refine le_antisymm (sorted_getD_zero_le_mem hsorted hmem) (listMin_le ?_)
  have hlen : 0 < (l.insertionSort (· ≤ ·)).length := by
    rw [List.length_insertionSort]; exact List.length_pos.mpr hl
  have : (l.insertionSort (· ≤ ·)).getD 0 0 ∈ l.insertionSort (· ≤ ·) := by
    rw [List.getD_eq_get _ 0 hlen]; exact List.get_mem _ _ _
  exact (List.mem_insertionSort _).mp this

end SortedLemmas

/-- C2: for a non-empty population and a confidence level in `(0,1)`, the VaR
index `floor(len·(1-c))` is in range, `calculateVaR` returns the negated
ascending-sorted element at that index, an index of `0` yields the negated
population minimum, and the spec scenario
`calculateVaR([-10,-5,0,5,10], 0.8) = 5` holds. -/
theorem C2_calculateVaR_spec (values : List ℚ) (c : ℚ) (hne : values ≠ [])
    (h0 : 0 < c) (_h1 : c < 1) :
    ((Int.floor ((values.length : ℚ) * (1 - c))).toNat < values.length ∧
      calculateVaR values c =
        -((values.insertionSort (· ≤ ·)).getD
            (Int.floor ((values.length : ℚ) * (1 - c))).toNat 0) ∧
      ((Int.floor ((values.length : ℚ) * (1 - c))).toNat = 0 →
        calculateVaR values c = -(listMin values))) ∧
    calculateVaR ([-10, -5, 0, 5, 10] : List ℚ) (8/10) = 5 := by
  have hlen : 0 < values.length := List.length_pos.mpr hne
  have hx : (values.length : ℚ) * (1 - c) < (values.length : ℚ) := by
    have : (0 : ℚ) < (values.length : ℚ) := by exact_mod_cast hlen
    nlinarith
  have hfloor : Int.floor ((values.length : ℚ) * (1 - c)) < (values.length : ℤ) :=
    Int.floor_lt.mpr (by exact_mod_cast hx)
  refine ⟨⟨by omega, ?_, ?_⟩, by
    show -((([-10, -5, 0, 5, 10] : List ℚ).insertionSort (· ≤ ·)).getD
      (Int.floor (((([-10, -5, 0, 5, 10] : List ℚ).insertionSort (· ≤ ·)).length : ℚ) *
        (1 - 8/10))).toNat 0) = 5
    norm_num⟩
  · show -((values.insertionSort (· ≤ ·)).getD
        (Int.floor (((values.insertionSort (· ≤ ·)).length : ℚ) * (1 - c))).toNat 0) = _
    rw [List.length_insertionSort]
  · intro hidx
    show -((values.insertionSort (· ≤ ·)).getD
        (Int.floor (((values.insertionSort (· ≤ ·)).length : ℚ) * (1 - c))).toNat 0) = _
    rw [List.length_insertionSort, hidx, insertionSort_getD_zero hne]

/-- C2 witness: the spec scenario, with the hypotheses discharged at the
concrete population `[-10,-5,0,5,10]` and confidence level `0.8`. -/
theorem C2_calculateVaR_spec_witness :
    (Int.floor ((([-10, -5, 0, 5, 10] : List ℚ).length : ℚ) * (1 - 8/10))).toNat <
      ([-10, -5, 0, 5, 10] : List ℚ).length :=
  (C2_calculateVaR_spec [-10, -5, 0, 5, 10] (8/10) (by decide) (by norm_num)
    (by norm_num)).1.1

/-- C3: at the failing input `values = [1,2,3]`, `confidenceLevel = 0.95`,
the VaR tail is empty (`varIndex = 0`) and `calculateExpectedShortfall`
evaluates `-0/0`, i.e. propagates the non-finite result (modelled `none`);
no `InsufficientSampleSize` error exists anywhere in the code. -/
theorem C3_expectedShortfall_nonfinite :
    calculateExpectedShortfall ([1, 2, 3] : List ℚ) (95/100) = none := by
  unfold calculateExpectedShortfall
  norm_num

/-- C7: for any non-empty population the 99% VaR is at least the 95% VaR,
because the 99% index is no larger than the 95% index and the sorted
population is monotone. -/
theorem C7_calculateVaR_ordering (values : List ℚ) (hne : values ≠ []) :
    calculateVaR values (95/100) ≤ calculateVaR values (99/100) := by
  have hlen : 0 < values.length := List.length_pos.mpr hne
  have hlenq : (0 : ℚ) < (values.length : ℚ) := by exact_mod_cast hlen
  have hsorted := List.sorted_insertionSort (α := ℚ) (· ≤ ·) values
  show -((values.insertionSort (· ≤ ·)).getD _ 0) ≤
    -((values.insertionSort (· ≤ ·)).getD _ 0)
  rw [neg_le_neg_iff]
  apply sorted_getD_mono hsorted
  · apply Int.toNat_le_toNat
    apply Int.floor_le_floor
    nlinarith
  · rw [List.length_insertionSort]
    have : Int.floor (((values.length : ℚ)) * (1 - 95/100)) < (values.length : ℤ) := by
      apply Int.floor_lt.mpr
      push_cast
      nlinarith
    have h2 : Int.floor (((values.insertionSort (· ≤ ·)).length : ℚ) * (1 - 95/100)) <
        (values.length : ℤ) := by
      rwa [List.length_insertionSort]
    omega

/-- C7 witness: the VaR ordering evaluated on the concrete population
`[1,2]`. -/
theorem C7_calculateVaR_ordering_witness :
    calculateVaR ([1, 2] : List ℚ) (95/100) ≤ calculateVaR ([1, 2] : List ℚ) (99/100) :=
  C7_calculateVaR_ordering [1, 2] (by decide)

section Percentiles

theorem lookup_map_pair {β γ : Type*} [BEq β] [LawfulBEq β] (f : β → γ) :
    ∀ (ps : List β) (p : β), p ∈ ps →
      (ps.map (fun q => (q, f q))).lookup p = some (f p)
  | q :: ps, p, hp => by
    by_cases h : p = q
    · subst h; simp [List.lookup]
    · have hp' : p ∈ ps := by
        rcases List.mem_cons.mp hp with h' | h'
        · exact absurd h' h
        · exact h'
      have hbeq : (p == q) = false := beq_eq_false_iff_ne.mpr h
      simp only [List.map_cons, List.lookup, hbeq]
      exact lookup_map_pair f ps p hp'

theorem calculatePercentiles_lookup {values ps : List ℚ} {p : ℚ} (hp : p ∈ ps) :
    (calculatePercentiles values ps).lookup p = some (percentileValue values p) :=
  lookup_map_pair (percentileValue values) ps p hp

theorem percentileValue_mono (values : List ℚ) {p1 p2 : ℚ} (hne : values ≠ [])
    (_hp1 : 0 ≤ p1) (hlt : p1 ≤ p2) (hp2 : p2 < 1) :
    percentileValue values p1 ≤ percentileValue values p2 := by
  have hlen : 0 < values.length := List.length_pos.mpr hne
  have hsorted := List.sorted_insertionSort (α := ℚ) (· ≤ ·) values
  have hslen : (values.insertionSort (· ≤ ·)).length = values.length :=
    List.length_insertionSort _ _
  have hn1 : (0 : ℚ) ≤ (values.length : ℚ) - 1 := by
    have : (1 : ℚ) ≤ (values.length : ℚ) := by exact_mod_cast hlen
    linarith
  apply sorted_getD_mono hsorted
  · apply Int.toNat_le_toNat
    apply Int.floor_le_floor
    rw [hslen]
    exact mul_le_mul_of_nonneg_right hlt hn1
  · rw [hslen]
    have hfl : Int.floor (p2 * ((values.length : ℚ) - 1)) < (values.length : ℤ) := by
      apply Int.floor_lt.mpr
      push_cast
      nlinarith
    have := hfl
    rw [← hslen] at this ⊢
    rw [hslen] at this ⊢
    omega

/-- C6: for a non-empty population and percentile levels `0 < p1 < p2 < 1`
both present in the requested list, the mapping returned by
`calculatePercentiles` is monotone: the entry at `p1` is at most the entry at
`p2`, each entry being the ascending-sorted element at index
`floor(p·(len-1))`. -/
theorem C6_calculatePercentiles_monotone (values ps : List ℚ) (p1 p2 : ℚ)
    (hne : values ≠ []) (hp1 : 0 < p1) (hlt : p1 < p2) (hp2 : p2 < 1)
    (hm1 : p1 ∈ ps) (hm2 : p2 ∈ ps) :
    ∃ v1 v2, (calculatePercentiles values ps).lookup p1 = some v1 ∧
      (calculatePercentiles values ps).lookup p2 = some v2 ∧ v1 ≤ v2 :=
  ⟨percentileValue values p1, percentileValue values p2,
    calculatePercentiles_lookup hm1, calculatePercentiles_lookup hm2,
    percentileValue_mono values hne hp1.le hlt.le hp2⟩

/-- C6 witness: percentile monotonicity evaluated on the population `[3,1,2]`
with requested percentiles `0.25` and `0.75`. -/
theorem C6_calculatePercentiles_monotone_witness :
    ∃ v1 v2,
      (calculatePercentiles ([3, 1, 2] : List ℚ) [1/4, 3/4]).lookup (1/4) = some v1 ∧
      (calculatePercentiles ([3, 1, 2] : List ℚ) [1/4, 3/4]).lookup (3/4) = some v2 ∧
      v1 ≤ v2 :=
  C6_calculatePercentiles_monotone [3, 1, 2] [1/4, 3/4] (1/4) (3/4) (by decide)
    (by norm_num) (by norm_num) (by norm_num) (by norm_num [List.mem_cons])
    (by norm_num [List.mem_cons])

end Percentiles

section Drawdown

theorem foldl_drawdownStep_some (values : List ℚ) :
    ∀ (peak acc : ℚ), 0 < peak → 0 ≤ acc →
      ∃ q, (values.foldl drawdownStep (peak, some acc)).2 = some q ∧ 0 ≤ q
  | peak, acc, hpeak, hacc => by
    cases values with
    | nil => exact ⟨acc, rfl, hacc⟩
    | cons v vs =>
      rw [List.foldl_cons]
      have hpeak' : 0 < (if peak < v then v else peak) := by
        split
        · next h => exact lt_trans hpeak h
        · exact hpeak
      have hne0 : (if peak < v then v else peak) ≠ 0 := ne_of_gt hpeak'
      have hstep : drawdownStep (peak, some acc) v =
          ((if peak < v then v else peak),
            some (max acc (((if peak < v then v else peak) - v) /
              (if peak < v then v else peak)))) := by
        simp [drawdownStep, jsMax, hne0]
      rw [hstep]
      exact foldl_drawdownStep_some vs _ _ hpeak' (le_max_of_le_left hacc)

/-- C10 counterexample: on the series `[0, 1]` the first running peak is `0`,
the division is not skipped, and the non-finite result (modelled `none`)
propagates to the return value — there is no explicit zero-peak handling. -/
theorem C10_maxDrawdown_zero_peak_counterexample :
    calculateMaxDrawdown ([0, 1] : List ℚ) = none := by
  decide

/-- C10 (amended): `calculateMaxDrawdown` scans left-to-right tracking the
running peak and returns the maximum of `(peak-value)/peak`; whenever the
first element (hence every running peak) is positive the result is a finite
non-negative number, and the spec scenario `[100,120,90,110,80]` yields
`1/3`; but a zero running peak propagates a non-finite value instead of
being skipped. -/
theorem C10_maxDrawdown_amended :
    (∀ values : List ℚ, 0 < values.headD 0 →
      ∃ q, calculateMaxDrawdown values = some q ∧ 0 ≤ q) ∧
    calculateMaxDrawdown ([100, 120, 90, 110, 80] : List ℚ) = some (1/3) := by
  constructor
  · intro values hpos
    exact foldl_drawdownStep_some values _ 0 hpos le_rfl
  · norm_num [calculateMaxDrawdown, drawdownStep, jsMax, List.foldl, max_def]

/-- C10 witness: the amended positivity statement evaluated on the concrete
series `[2]`. -/
theorem C10_maxDrawdown_amended_witness :
    ∃ q, calculateMaxDrawdown ([2] : List ℚ) = some q ∧ 0 ≤ q :=
  C10_maxDrawdown_amended.1 [2] (by norm_num)

end Drawdown

section RealSide

/-- `generateNormalDistribution(mean, std, count, rng)` over the idealized
reals: Box-Muller, the `i`-th sample consuming draws `2i` and `2i+1` of the
rng stream (the source draws `u1` then `u2` per loop iteration). -/
noncomputable def generateNormalDistribution (mean std : ℝ) (count : ℕ)
    (rng : ℕ → ℝ) : List ℝ :=
  (List.range count).map fun i =>
    let u1 := rng (2 * i)
    let u2 := rng (2 * i + 1)
    let z0 := Real.sqrt (-2.0 * Real.log u1) * Real.cos (2.0 * Real.pi * u2)
    z0 * std + mean

/-- `generateTriangularDistribution(min, max, mode, count, rng)`: inverse-CDF
sampling, the `i`-th sample consuming draw `i`.  No parameter validation of
any kind is performed by the source. -/
noncomputable def generateTriangularDistribution (min max mode : ℝ)
    (count : ℕ) (rng : ℕ → ℝ) : List ℝ :=
  let range := max - min
  let modePosition := (mode - min) / range
  (List.range count).map fun i =>
    let r := rng i
    if r < modePosition then min + Real.sqrt (r * range * (mode - min))
    else max - Real.sqrt ((1 - r) * range * (max - mode))

/-- The price at step `t` of the GBM path: step `0` is the initial price,
step `t+1` multiplies step `t` by `exp(logReturn)` where the standard normal
variate consumes draws `2t` and `2t+1` (the source's loop index `t+1` draws
two fresh uniforms per step). -/
noncomputable def gbmPrice (initialPrice drift volatility : ℝ)
    (rng : ℕ → ℝ) : ℕ → ℝ
  | 0 => initialPrice
  | t + 1 =>
    let u1 := rng (2 * t)
    let u2 := rng (2 * t + 1)
    let z := Real.sqrt (-2.0 * Real.log u1) * Real.cos (2.0 * Real.pi * u2)
    let logReturn := (drift - 0.5 * volatility * volatility) + volatility * z
    gbmPrice initialPrice drift volatility rng t * Real.exp logReturn

/-- `simulateTokenPriceFluctuations(...)`: the source initialises the array
with `[initialPrice]` and then pushes for `t = 1 .. timeSteps-1`, so the
returned list is the prices at steps `0 .. max(1, timeSteps) - 1`. -/
noncomputable def simulateTokenPriceFluctuations (initialPrice annualDrift
    annualVolatility : ℝ) (timeSteps : ℕ) (timeStepInMonths : ℝ)
    (rng : ℕ → ℝ) : List ℝ :=
  let timeStepInYears := timeStepInMonths / 12
  let drift := annualDrift * timeStepInYears
  let volatility := annualVolatility * Real.sqrt timeStepInYears
  (List.range (Nat.max 1 timeSteps)).map
    (gbmPrice initialPrice drift volatility rng)

theorem sqrt_le_of_le_sq {a b : ℝ} (hb : 0 ≤ b) (h : a ≤ b ^ 2) :
    Real.sqrt a ≤ b := by
  calc Real.sqrt a ≤ Real.sqrt (b ^ 2) := Real.sqrt_le_sqrt h
    _ = b := Real.sqrt_sq hb

/-- C4 counterexample: with the invalid parameters `min = 0`, `max = 1`,
`mode = 2` (violating `mode ≤ max`) and the in-range draw `0.9`, the
function raises no error at all and returns a sample `sqrt(1.8) > max`. -/
theorem C4_triangular_no_validation_counterexample :
    1 < (generateTriangularDistribution 0 1 2 1 (fun _ => 9/10)).headD 0 := by
  have hval : (generateTriangularDistribution 0 1 2 1 (fun _ => 9/10)).headD 0 =
      if (9/10 : ℝ) < (2 - 0) / (1 - 0) then
        0 + Real.sqrt (9/10 * (1 - 0) * (2 - 0))
      else 1 - Real.sqrt ((1 - 9/10) * (1 - 0) * (1 - 2)) := rfl
  rw [hval, if_pos (by norm_num)]
  have hs : Real.sqrt 1 < Real.sqrt (9/10 * (1 - 0) * (2 - 0)) :=
    Real.sqrt_lt_sqrt (by norm_num) (by norm_num)
  rw [Real.sqrt_one] at hs
  linarith

/-- C4 (amended): `generateTriangularDistribution` performs no parameter
validation (no `InvalidParameter` error exists in the code); when the
precondition `min ≤ mode ≤ max` holds and every rng draw lies in `[0,1)`,
every returned sample lies in `[min, max]`. -/
theorem C4_triangular_support (lo hi mode : ℝ) (count : ℕ) (rng : ℕ → ℝ)
    (h1 : lo ≤ mode) (h2 : mode ≤ hi) (hr : ∀ i, 0 ≤ rng i ∧ rng i < 1) :
    ∀ x ∈ generateTriangularDistribution lo hi mode count rng,
      lo ≤ x ∧ x ≤ hi := by
  intro x hx
  obtain ⟨i, _, hix⟩ := List.mem_map.mp hx
  obtain ⟨hr0, hr1⟩ := hr i
  have hrange : (0 : ℝ) ≤ hi - lo := by linarith
  have hml : (0 : ℝ) ≤ mode - lo := by linarith
  have hhm : (0 : ℝ) ≤ hi - mode := by linarith
  dsimp only at hix
  subst hix
  split
  · next hbr =>
    have hrangepos : 0 < hi - lo := by
      rcases lt_or_eq_of_le hrange with h | h
      · exact h
      · exfalso
        rw [div_eq_zero_iff.mpr (Or.inr h.symm)] at hbr
        exact absurd hbr (not_lt.mpr hr0)
    have hmul : rng i * (hi - lo) < mode - lo :=
      (lt_div_iff hrangepos).mp hbr
    constructor
    · have := Real.sqrt_nonneg (rng i * (hi - lo) * (mode - lo))
      linarith
    · have hsq : Real.sqrt (rng i * (hi - lo) * (mode - lo)) ≤ hi - lo := by
        apply sqrt_le_of_le_sq hrange
        have h1' : rng i * (hi - lo) * (mode - lo) ≤ (mode - lo) * (mode - lo) :=
          mul_le_mul_of_nonneg_right hmul.le hml
        nlinarith
      linarith
  · next hbr =>
    constructor
    · have hsq : Real.sqrt ((1 - rng i) * (hi - lo) * (hi - mode)) ≤ hi - lo := by
        apply sqrt_le_of_le_sq hrange
        have e0 : (1 - rng i) * (hi - lo) ≤ hi - lo := by nlinarith
        have e1 : (1 - rng i) * (hi - lo) * (hi - mode) ≤ (hi - lo) * (hi - mode) :=
          mul_le_mul_of_nonneg_right e0 hhm
        have e2 : (hi - lo) * (hi - mode) ≤ (hi - lo) * (hi - lo) :=
          mul_le_mul_of_nonneg_left (by linarith) hrange
        rw [sq]
        linarith
      linarith
    · have := Real.sqrt_nonneg ((1 - rng i) * (hi - lo) * (hi - mode))
      linarith

/-- The head of a non-empty list is a member of it. -/
theorem headD_mem {l : List ℝ} (h : l ≠ []) : l.headD 0 ∈ l := by
  cases l with
  | nil => exact absurd rfl h
  | cons x xs => exact List.mem_cons_self x xs

/-- C4 witness: the support bound applied to the valid parameters
`(0, 2, 1)` and the constant in-range draw `1/2`. -/
theorem C4_triangular_support_witness :
    0 ≤ (generateTriangularDistribution 0 2 1 1 (fun _ => 1/2)).headD 0 ∧
      (generateTriangularDistribution 0 2 1 1 (fun _ => 1/2)).headD 0 ≤ 2 :=
  C4_triangular_support 0 2 1 1 (fun _ => 1/2) (by norm_num) (by norm_num)
    (fun _ => ⟨by norm_num, by norm_num⟩) _
    (headD_mem (by
      have hl : (generateTriangularDistribution 0 2 1 1 (fun _ => 1/2)).length = 1 := by
        simp [generateTriangularDistribution]
      intro hcon
      rw [hcon] at hl
      exact absurd hl (by norm_num)))

theorem gbmPrice_pos (initialPrice drift volatility : ℝ) (rng : ℕ → ℝ)
    (hp : 0 < initialPrice) : ∀ t, 0 < gbmPrice initialPrice drift volatility rng t
  | 0 => hp
  | t + 1 =>
    mul_pos (gbmPrice_pos initialPrice drift volatility rng hp t) (Real.exp_pos _)

theorem headD_map_range {f : ℕ → ℝ} {n : ℕ} (hn : 1 ≤ n) :
    (((List.range n).map f).headD 0) = f 0 := by
  cases n with
  | zero => omega
  | succ m => rw [List.range_succ_eq_map]; rfl

/-- C5 counterexample: a call with `timeSteps = 0` still returns one element
(the source unconditionally seeds the array with `initialPrice` before the
loop), so the returned sequence does not have length `steps` for every call. -/
theorem C5_gbm_zero_steps_counterexample :
    (simulateTokenPriceFluctuations 100 0 0 0 1 (fun _ => 1/2)).length = 1 := by
  simp [simulateTokenPriceFluctuations]

/-- C5 (amended): for `timeSteps ≥ 1` the returned path has length
`timeSteps` (a call with `timeSteps = 0` returns a single element instead),
its first element is `initialPrice` unconditionally, and for a positive
`initialPrice` every price on the path is strictly positive. -/
theorem C5_gbm_path (initialPrice annualDrift annualVolatility : ℝ)
    (timeSteps : ℕ) (timeStepInMonths : ℝ) (rng : ℕ → ℝ)
    (hts : 1 ≤ timeSteps) (hp : 0 < initialPrice) :
    (simulateTokenPriceFluctuations initialPrice annualDrift annualVolatility
        timeSteps timeStepInMonths rng).length = timeSteps ∧
      (simulateTokenPriceFluctuations initialPrice annualDrift annualVolatility
        timeSteps timeStepInMonths rng).headD 0 = initialPrice ∧
      ∀ p ∈ simulateTokenPriceFluctuations initialPrice annualDrift
        annualVolatility timeSteps timeStepInMonths rng, 0 < p := by
  refine ⟨?_, ?_, ?_⟩
  · simp [simulateTokenPriceFluctuations]
    omega
  · show (((List.range (Nat.max 1 timeSteps)).map _).headD 0) = initialPrice
    rw [headD_map_range (Nat.le_max_left 1 timeSteps)]
    rfl
  · intro p hp'
    obtain ⟨t, _, htp⟩ := List.mem_map.mp hp'
    exact htp ▸ gbmPrice_pos _ _ _ rng hp t

/-- C5 witness: the path invariants evaluated at `initialPrice = 100`,
one step. -/
theorem C5_gbm_path_witness :
    (simulateTokenPriceFluctuations 100 0 0 1 1 (fun _ => 1/2)).length = 1 :=
  (C5_gbm_path 100 0 0 1 1 (fun _ => 1/2) le_rfl (by norm_num)).1

end RealSide

section Orchestrator

/-- The `SimulationResult` record of the source, over the idealized reals;
`expectedShortfall95` carries the possibly non-finite Expected Shortfall. -/
structure SimulationResult where
  values : List ℝ
  mean : ℝ
  median : ℝ
  min : ℝ
  max : ℝ
  std : ℝ
  percentiles : List (ℝ × ℝ)
  VaR95 : ℝ
  VaR99 : ℝ
  expectedShortfall95 : Option ℝ
  histogram : List ℝ × List ℕ

/-- Modelled from the spec: `jStat.mean` of the external `jstat` library —
the arithmetic mean of the population. -/
noncomputable def jstatMean (values : List ℝ) : ℝ :=
  values.sum / (values.length : ℝ)

/-- Modelled from the spec: `jStat.median` of the external `jstat` library —
middle order statistic, averaging the two middle elements for an even-sized
population. -/
noncomputable def jstatMedian (values : List ℝ) : ℝ :=
  let sorted := values.insertionSort (· ≤ ·)
  let n := values.length
  if n % 2 = 1 then sorted.getD (n / 2) 0
  else (sorted.getD (n / 2 - 1) 0 + sorted.getD (n / 2) 0) / 2

/-- Modelled from the spec: `jStat.stdev` of the external `jstat` library —
population (not sample) standard deviation, per §4.4 of the spec. -/
noncomputable def jstatStdev (values : List ℝ) : ℝ :=
  Real.sqrt (((values.map (fun v => (v - jstatMean values) ^ 2)).sum) /
    (values.length : ℝ))

/-- `calculateStatistics(values)`: the single aggregation point composing all
summary statistics into a `SimulationResult`. -/
noncomputable def calculateStatistics (values : List ℝ) : SimulationResult where
  values := values
  mean := jstatMean values
  median := jstatMedian values
  min := listMin values
  max := listMax values
  std := jstatStdev values
  percentiles := calculatePercentiles values
    [0.01, 0.05, 0.1, 0.25, 0.5, 0.75, 0.9, 0.95, 0.99]
  VaR95 := calculateVaR values 0.95
  VaR99 := calculateVaR values 0.99
  expectedShortfall95 := calculateExpectedShortfall values 0.95
  histogram := calculateHistogram values 20

/-- `createRng(seed?)`.  Modelled from the spec: the external `seedrandom`
library is an arbitrary deterministic stream per seed string (parameter
`seedrandom`), and the non-seeded fallback `Math.random` is an ambient
non-deterministic source (parameter `ambient`).  A supplied seed selects the
seeded stream and ignores the ambient source entirely. -/
def createRng (seedrandom : String → ℕ → ℝ) (ambient : ℕ → ℝ) :
    Option String → ℕ → ℝ
  | some seed => seedrandom seed
  | none => ambient

/-- The parameter object of `simulateTokenHolderReturns`. -/
structure TokenHolderParams where
  pricePerToken : ℝ
  monthlyLeasePerToken : ℝ
  salvageValuePerToken : ℝ
  months : ℕ
  utilizationMean : ℝ
  utilizationStd : ℝ
  salvageValueMean : ℝ
  salvageValueStd : ℝ
  progressiveNOI : Bool
  calculateReturnFn : ℝ → ℝ → ℝ

/-- The per-trial loop of `simulateTokenHolderReturns`: trial `i` consumes
draws `4i .. 4i+3` of the shared rng stream (two Box-Muller uniforms for the
utilization sample, then two for the salvage sample), clamps each sample
with `Math.max(0, Math.min(100, ·))`, and applies the caller-supplied return
function. -/
noncomputable def tokenHolderReturns (rng : ℕ → ℝ)
    (params : TokenHolderParams) (numSimulations : ℕ) : List ℝ :=
  (List.range numSimulations).map fun i =>
    let utilization := max 0 (min 100
      ((generateNormalDistribution params.utilizationMean params.utilizationStd
        1 (fun k => rng (4 * i + k))).headD 0))
    let salvageRate := max 0 (min 100
      ((generateNormalDistribution params.salvageValueMean params.salvageValueStd
        1 (fun k => rng (4 * i + 2 + k))).headD 0))
    params.calculateReturnFn utilization salvageRate

/-- `simulateTokenHolderReturns(params, numSimulations)`: one fixed-seed rng
(seed `"token-holder-returns"`) shared across all trials, statistics over the
collected returns. -/
noncomputable def simulateTokenHolderReturns (seedrandom : String → ℕ → ℝ)
    (ambient : ℕ → ℝ) (params : TokenHolderParams) (numSimulations : ℕ) :
    SimulationResult :=
  let rng := createRng seedrandom ambient (some "token-holder-returns")
  calculateStatistics (tokenHolderReturns rng params numSimulations)

/-- The parameter object of
`simulateTokenHolderReturnsWithPriceFluctuations`; the return function takes
the simulated price path as a third argument. -/
structure TokenHolderPriceParams where
  pricePerToken : ℝ
  monthlyLeasePerToken : ℝ
  salvageValuePerToken : ℝ
  months : ℕ
  utilizationMean : ℝ
  utilizationStd : ℝ
  salvageValueMean : ℝ
  salvageValueStd : ℝ
  tokenPriceVolatility : ℝ
  tokenPriceDrift : ℝ
  calculateReturnFn : ℝ → ℝ → List ℝ → ℝ

/-- The per-trial loop of the price-fluctuation variant: each trial consumes
four draws for the two clamped normal samples and `2·(months-1)` draws for
the GBM path (monthly steps). -/
noncomputable def tokenHolderReturnsWithPrices (rng : ℕ → ℝ)
    (params : TokenHolderPriceParams) (numSimulations : ℕ) : List ℝ :=
  let drawsPerTrial := 4 + 2 * (params.months - 1)
  (List.range numSimulations).map fun i =>
    let base := drawsPerTrial * i
    let utilization := max 0 (min 100
      ((generateNormalDistribution params.utilizationMean params.utilizationStd
        1 (fun k => rng (base + k))).headD 0))
    let salvageRate := max 0 (min 100
      ((generateNormalDistribution params.salvageValueMean params.salvageValueStd
        1 (fun k => rng (base + 2 + k))).headD 0))
    let tokenPrices := simulateTokenPriceFluctuations params.pricePerToken
      params.tokenPriceDrift params.tokenPriceVolatility params.months 1
      (fun k => rng (base + 4 + k))
    params.calculateReturnFn utilization salvageRate tokenPrices

/-- `simulateTokenHolderReturnsWithPriceFluctuations(params, numSimulations)`:
same trial structure with a distinct fixed seed. -/
noncomputable def simulateTokenHolderReturnsWithPriceFluctuations
    (seedrandom : String → ℕ → ℝ) (ambient : ℕ → ℝ)
    (params : TokenHolderPriceParams) (numSimulations : ℕ) : SimulationResult :=
  let rng := createRng seedrandom ambient (some "token-holder-returns-price-fluctuations")
  calculateStatistics (tokenHolderReturnsWithPrices rng params numSimulations)

/-- `probabilityOfAchievingTarget(simulationResult, targetReturn)`: empirical
fraction of values at or above the target. -/
noncomputable def probabilityOfAchievingTarget
    (simulationResult : SimulationResult) (targetReturn : ℝ) : ℝ :=
  let successCount :=
    (simulationResult.values.filter fun val => targetReturn ≤ val).length
  (successCount : ℝ) / (simulationResult.values.length : ℝ)

/-- C8: `simulateTokenHolderReturns` is deterministic — it draws only from
the fixed-seed stream `seedrandom "token-holder-returns"` and never from the
ambient (`Math.random`) source, so two runs with the same parameter object
(all Lean functions, hence pure return functions) and the same trial count
agree for any two ambient sources; and the rng it constructs is exactly the
seeded stream for the constant seed string. -/
theorem C8_simulateTokenHolderReturns_deterministic
    (seedrandom : String → ℕ → ℝ) (ambient1 ambient2 : ℕ → ℝ)
    (params : TokenHolderParams) (numSimulations : ℕ) :
    simulateTokenHolderReturns seedrandom ambient1 params numSimulations =
      simulateTokenHolderReturns seedrandom ambient2 params numSimulations ∧
    createRng seedrandom ambient1 (some "token-holder-returns") =
      seedrandom "token-holder-returns" :=
  ⟨rfl, rfl⟩

/-- C9: every value collected by `simulateTokenHolderReturns` (and by the
price-fluctuation variant) is the caller-supplied return function applied to
a utilization and a salvage rate each clamped to `[0,100]`; and
`probabilityOfAchievingTarget` on values `[1,2,3,4,5]` with target `3` is
`0.6`. -/
theorem C9_clamped_inputs_and_target_probability :
    (∀ (sr : String → ℕ → ℝ) (amb : ℕ → ℝ) (params : TokenHolderParams) (n : ℕ),
      ∀ r ∈ (simulateTokenHolderReturns sr amb params n).values,
        ∃ u s, 0 ≤ u ∧ u ≤ 100 ∧ 0 ≤ s ∧ s ≤ 100 ∧
          r = params.calculateReturnFn u s) ∧
    (∀ (sr : String → ℕ → ℝ) (amb : ℕ → ℝ) (params : TokenHolderPriceParams)
        (n : ℕ),
      ∀ r ∈ (simulateTokenHolderReturnsWithPriceFluctuations sr amb params n).values,
        ∃ u s prices, 0 ≤ u ∧ u ≤ 100 ∧ 0 ≤ s ∧ s ≤ 100 ∧
          r = params.calculateReturnFn u s prices) ∧
    probabilityOfAchievingTarget (calculateStatistics [1, 2, 3, 4, 5]) 3 = 3/5 := by
  refine ⟨?_, ?_, ?_⟩
  · intro sr amb params n r hr
    obtain ⟨i, _, hir⟩ := List.mem_map.mp hr
    refine ⟨_, _, le_max_left _ _, ?_, le_max_left _ _, ?_, hir.symm⟩
    · exact max_le (by norm_num) (min_le_left _ _)
    · exact max_le (by norm_num) (min_le_left _ _)
  · intro sr amb params n r hr
    obtain ⟨i, _, hir⟩ := List.mem_map.mp hr
    refine ⟨_, _, _, le_max_left _ _, ?_, le_max_left _ _, ?_, hir.symm⟩
    · exact max_le (by norm_num) (min_le_left _ _)
    · exact max_le (by norm_num) (min_le_left _ _)
  · show ((((calculateStatistics [1, 2, 3, 4, 5]).values.filter
        fun val => (3 : ℝ) ≤ val).length : ℝ)) /
      (((calculateStatistics [1, 2, 3, 4, 5]).values.length : ℝ)) = 3/5
    have hv : (calculateStatistics [1, 2, 3, 4, 5]).values = [1, 2, 3, 4, 5] := rfl
    rw [hv]
    rw [show ([1, 2, 3, 4, 5] : List ℝ).filter (fun val => (3 : ℝ) ≤ val) =
      [3, 4, 5] by
        simp only [List.filter]
        norm_num]
    norm_num

/-- Concrete parameters for the C9 witness: zero standard deviations make
the clamped samples equal to the means (50), independent of the rng draws. -/
noncomputable def C9params : TokenHolderParams :=
  ⟨0, 0, 0, 1, 50, 0, 50, 0, false, fun u s => u + s⟩

/-- C9 witness: the clamping statement applied to the single trial of
`C9params`, whose collected return is `50 + 50 = 100`. -/
theorem C9_clamped_inputs_witness :
    ∃ u s, 0 ≤ u ∧ u ≤ 100 ∧ 0 ≤ s ∧ s ≤ 100 ∧
      (100 : ℝ) = C9params.calculateReturnFn u s :=
  C9_clamped_inputs_and_target_probability.1 (fun _ _ => 0) (fun _ => 0)
    C9params 1 100 (by
      show (100 : ℝ) ∈ tokenHolderReturns
        (createRng (fun _ _ => 0) (fun _ => 0) (some "token-holder-returns"))
        C9params 1
      have : tokenHolderReturns
          (createRng (fun _ _ => 0) (fun _ => 0) (some "token-holder-returns"))
          C9params 1 =
          [C9params.calculateReturnFn
            (max 0 (min 100 (Real.sqrt (-2.0 * Real.log 0) *
              Real.cos (2.0 * Real.pi * 0) * 0 + 50)))
            (max 0 (min 100 (Real.sqrt (-2.0 * Real.log 0) *
              Real.cos (2.0 * Real.pi * 0) * 0 + 50)))] := rfl
      rw [this]
      norm_num [C9params])

end Orchestrator

end MonteCarlo
